import Mathlib

/-!
Shallow embedding of the LRU cache from lru.go and of the LRU counter from
lru_counter.go, together with proofs about the claims of the specification.

The Go cache keeps a doubly linked recency list (front = most recently used)
and a map from key to list element.  We model the list as a Lean `List` of
entries (head = front) and the map by its key set, a `List` of keys.  Time is
a `Nat` passed explicitly to the operations that read the clock.  Removal
callbacks are recorded as events; each event also records the table and list
contents at the exact program point where the Go code invokes `removalFunc`,
so that the order between state mutation and callback invocation is
observable.
-/

namespace LruSpec

/-- Mirrors the Go struct `entry{Key, Value, lastUpdate}`.  `lastUpdate` is the
zero timestamp when TTL is disabled (the Go code leaves it at the zero
`time.Time`). -/
structure EntryRec (K V : Type) where
  key : K
  value : V
  lastUpdate : Nat
deriving DecidableEq

/-- Immutable configuration of an `LRU`: the optional loader (`addFunc`) and
whether a removal callback was supplied (`removalFunc != nil`). -/
structure Config (K V : Type) where
  addFunc : Option (K → V)
  removalConfigured : Bool

/-- Mutable state of the Go `LRU` struct: the recency list (head = front =
most recently used), the key set of the `table` map, the capacity and the ttl
(`0` disables expiry). -/
structure LRUState (K V : Type) where
  list : List (EntryRec K V)
  table : List K
  capacity : Nat
  ttl : Nat
deriving DecidableEq

/-- One invocation of the removal callback: the arguments passed to it and the
table / list contents at the moment the Go code makes the call. -/
structure RemovalEvent (K V : Type) where
  key : K
  value : V
  tableAtCall : List K
  listAtCall : List (EntryRec K V)
deriving DecidableEq

variable {K V : Type} [DecidableEq K]

/-- Effect of `lru.table[key] = element` on the key set of the map. -/
def insertKey (k : K) (t : List K) : List K :=
  if k ∈ t then t else k :: t

/-- Effect of `delete(lru.table, key)` on the key set of the map. -/
def eraseKeyTable (t : List K) (k : K) : List K :=
  t.filter fun x => decide (x ≠ k)

/-- Dereference of `lru.table[key]`: the (unique, in well formed states) list
entry holding `key`. -/
def findEntry (l : List (EntryRec K V)) (k : K) : Option (EntryRec K V) :=
  l.find? fun e => decide (e.key = k)

/-- Effect of `lru.list.Remove(element)` where `element` is the entry holding
`key`: removes the first entry with that key. -/
def eraseEntry (l : List (EntryRec K V)) (k : K) : List (EntryRec K V) :=
  l.eraseP fun e => decide (e.key = k)

/-- Loop body of `checkCapacity`, with explicit fuel.  Each iteration removes
one element, so fuel `s.list.length` is enough for the Go `for` loop
`for lru.list.Len() > lru.capacity { ... }`; the loop removes the back
element from the list and the table and then invokes the removal callback. -/
def checkCapacityGo (cfg : Config K V) :
    Nat → LRUState K V → LRUState K V × List (RemovalEvent K V)
  | 0, s => (s, [])
  | fuel + 1, s =>
    if s.capacity < s.list.length then
      match s.list.getLast? with
      | none => (s, [])
      | some delValue =>
        let s1 : LRUState K V :=
          { s with
            list := s.list.dropLast
            table := eraseKeyTable s.table delValue.key }
        let evs := if cfg.removalConfigured then
            [⟨delValue.key, delValue.value, s1.table, s1.list⟩] else []
        let r := checkCapacityGo cfg fuel s1
        (r.1, evs ++ r.2)
    else (s, [])

/-- The Go method `checkCapacity`. -/
def checkCapacity (cfg : Config K V) (s : LRUState K V) :
    LRUState K V × List (RemovalEvent K V) :=
  checkCapacityGo cfg s.list.length s

/-- The Go method `addNew`: builds the entry (stamping it only when ttl > 0),
pushes it to the front, stores it in the table and runs `checkCapacity`. -/
def addNew (cfg : Config K V) (k : K) (v : V) (now : Nat) (s : LRUState K V) :
    LRUState K V × List (RemovalEvent K V) :=
  let e : EntryRec K V := ⟨k, v, if 0 < s.ttl then now else 0⟩
  checkCapacity cfg { s with list := e :: s.list, table := insertKey k s.table }

/-- The Go method `updateInplace`: replace the stored value, refresh the
timestamp when ttl > 0, and move the element to the front. -/
def updateInplace (k : K) (v : V) (now : Nat) (s : LRUState K V) : LRUState K V :=
  match findEntry s.list k with
  | none => s
  | some e =>
    let e1 : EntryRec K V :=
      ⟨e.key, v, if 0 < s.ttl then now else e.lastUpdate⟩
    { s with list := e1 :: eraseEntry s.list k }

/-- The Go method `Set`. -/
def Set (cfg : Config K V) (k : K) (v : V) (now : Nat) (s : LRUState K V) :
    LRUState K V × List (RemovalEvent K V) :=
  if k ∈ s.table then (updateInplace k v now s, [])
  else addNew cfg k v now s

/-- The Go method `Get`.  Returns the value (`none` models the Go `nil`), the
`ok` flag, the new state and the removal events.  In the expired branch the
Go code invokes the callback first and removes the entry afterwards, which is
why the event snapshot there is the unmodified state. -/
def Get (cfg : Config K V) (k : K) (now : Nat) (s : LRUState K V) :
    Option V × Bool × LRUState K V × List (RemovalEvent K V) :=
  if k ∈ s.table then
    match findEntry s.list k with
    | none => (none, false, s, [])
    | some e =>
      if 0 < s.ttl ∧ s.ttl < now - e.lastUpdate then
        let evs := if cfg.removalConfigured then
            [⟨e.key, e.value, s.table, s.list⟩] else []
        let s1 : LRUState K V :=
          { s with list := eraseEntry s.list k, table := eraseKeyTable s.table k }
        match cfg.addFunc with
        | some f =>
          let r := addNew cfg k (f k) now s1
          (some (f k), true, r.1, evs ++ r.2)
        | none => (none, false, s1, evs)
      else
        (some e.value, true, { s with list := e :: eraseEntry s.list k }, [])
  else
    match cfg.addFunc with
    | some f =>
      let r := addNew cfg k (f k) now s
      (some (f k), true, r.1, r.2)
    | none => (none, false, s, [])

/-- The Go method `Delete`.  Note the order: the callback is invoked first
(with the pre-removal state as snapshot), the list and table removals happen
afterwards. -/
def Delete (cfg : Config K V) (k : K) (s : LRUState K V) :
    Bool × LRUState K V × List (RemovalEvent K V) :=
  if k ∈ s.table then
    let evs := if cfg.removalConfigured then
        match findEntry s.list k with
        | some n => [⟨n.key, n.value, s.table, s.list⟩]
        | none => []
      else []
    (true,
     { s with list := eraseEntry s.list k, table := eraseKeyTable s.table k },
     evs)
  else (false, s, [])

/-- The Go method `Len`. -/
def Len (s : LRUState K V) : Nat :=
  s.list.length

/-- The Go method `Capacity`. -/
def Capacity (s : LRUState K V) : Nat :=
  s.capacity

/-- The Go method `Flush`: iterates the list from the front (most recently
used first), invoking the callback on every entry, then clears list and
table.  No mutation happens during the iteration, so every event snapshot is
the original state. -/
def Flush (cfg : Config K V) (s : LRUState K V) :
    LRUState K V × List (RemovalEvent K V) :=
  let evs := if cfg.removalConfigured then
      s.list.map fun n => (⟨n.key, n.value, s.table, s.list⟩ : RemovalEvent K V)
    else []
  ({ s with list := [], table := [] }, evs)

/-- The Go constructor `New` (which in addition panics when `capacity < 1`). -/
def New (capacity ttl : Nat) : LRUState K V :=
  ⟨[], [], capacity, ttl⟩

/-- Well formed states: the states reachable through the API.  Keys are
unique in the recency list and the table key set matches the list keys. -/
def WF (s : LRUState K V) : Prop :=
  s.table.Nodup ∧ (s.list.map fun e => e.key).Nodup ∧
    (∀ k ∈ s.table, k ∈ s.list.map fun e => e.key) ∧
    (∀ k ∈ s.list.map (fun e => e.key), k ∈ s.table)

instance (s : LRUState K V) : Decidable (WF s) := by
  unfold WF; infer_instance

/-- A public cache operation, for statements quantifying over call
sequences. -/
inductive Op (K V : Type) where
  | set (k : K) (v : V) (now : Nat)
  | get (k : K) (now : Nat)
deriving DecidableEq

/-- Apply one public operation, returning the new state and the removal
events it produced. -/
def applyOp (cfg : Config K V) (s : LRUState K V) :
    Op K V → LRUState K V × List (RemovalEvent K V)
  | .set k v now => Set cfg k v now s
  | .get k now =>
    let r := Get cfg k now s
    (r.2.2.1, r.2.2.2)

/-- Run a sequence of operations, collecting all removal events. -/
def runOps (cfg : Config K V) (s : LRUState K V) :
    List (Op K V) → LRUState K V × List (RemovalEvent K V)
  | [] => (s, [])
  | op :: ops =>
    let r := applyOp cfg s op
    let r2 := runOps cfg r.1 ops
    (r2.1, r.2 ++ r2.2)

/-- The state after each operation of a sequence, in order. -/
def statesAfter (cfg : Config K V) (s : LRUState K V) :
    List (Op K V) → List (LRUState K V)
  | [] => []
  | op :: ops =>
    let r := applyOp cfg s op
    r.1 :: statesAfter cfg r.1 ops

/-- Configuration of the cache inside an `LRUCounter`: `New(nil, r, ...)`
with `r` always non-nil. -/
def counterConfig : Config K Int :=
  ⟨none, true⟩

/-- The Go method `LRUCounter.Get`: delegates to the cache and projects the
value out of the `interface{}` (zero when missing). -/
def counterGet (s : LRUState K Int) (k : K) (now : Nat) :
    Int × Bool × LRUState K Int × List (RemovalEvent K Int) :=
  let r := Get counterConfig k now s
  (if r.2.1 then r.1.getD 0 else 0, r.2.1, r.2.2.1, r.2.2.2)

/-- The Go method `LRUCounter.Incr`: read the current total, add the delta,
write it back. -/
def Incr (s : LRUState K Int) (k : K) (delta : Int) (now : Nat) :
    LRUState K Int × List (RemovalEvent K Int) :=
  let r := counterGet s k now
  let value := if r.2.1 then delta + r.1 else delta
  let r2 := Set counterConfig k value now r.2.2.1
  (r2.1, r.2.2.2 ++ r2.2)

/-- Run a sequence of `Incr` calls. -/
def runIncrs (s : LRUState K Int) :
    List (K × Int × Nat) → LRUState K Int × List (RemovalEvent K Int)
  | [] => (s, [])
  | (k, d, now) :: rest =>
    let r := Incr s k d now
    let r2 := runIncrs r.1 rest
    (r2.1, r.2 ++ r2.2)

/-- Concrete configuration: no loader, removal callback configured. -/
def cfgNL : Config Nat Int :=
  ⟨none, true⟩

/-- Operation sequence for the LRU-order scenario: insert keys 1..4 (A..D),
access key 1 (A), insert key 5 (E). -/
def opsC2 : List (Op Nat Int) :=
  [.set 1 10 0, .set 2 20 0, .set 3 30 0, .set 4 40 0, .get 1 0, .set 5 50 0]

/-- Cache with ttl 10 holding key 1 stamped at time 0. -/
def sC3 : LRUState Nat Int :=
  ⟨[⟨1, 7, 0⟩], [1], 4, 10⟩

/-- Cache (ttl disabled) holding key 2 (most recently used) and key 1. -/
def sC4 : LRUState Nat Int :=
  ⟨[⟨2, 2, 0⟩, ⟨1, 1, 0⟩], [1, 2], 4, 0⟩

/-- Cache with ttl 10 holding key 1 stamped at time 0 and key 2 at time 3. -/
def sC5 : LRUState Nat Int :=
  ⟨[⟨1, 5, 0⟩, ⟨2, 6, 3⟩], [1, 2], 4, 10⟩

/-- Cache (ttl disabled) holding only key 1. -/
def sC6 : LRUState Nat Int :=
  ⟨[⟨1, 1, 0⟩], [1], 4, 0⟩

/-- The removal event produced by deleting key 1 from `sC6`. -/
def evC6 : RemovalEvent Nat Int :=
  ⟨1, 1, [1], [⟨1, 1, 0⟩]⟩

/-- First six increments of the counting scenario. -/
def incrsC8a : List (Nat × Int × Nat) :=
  [(1, 1, 0), (2, 1, 0), (2, 1, 0), (3, 1, 0), (3, 1, 0), (4, 1, 0)]

/-- All seven increments of the counting scenario. -/
def incrsC8 : List (Nat × Int × Nat) :=
  incrsC8a ++ [(5, 1, 0)]

/-- Capacity-1 cache with ttl 10 holding key 1 stamped at time 0. -/
def sC9 : LRUState Nat Int :=
  ⟨[⟨1, 5, 0⟩], [1], 1, 10⟩

/-- Two inserts into a capacity-1 cache, for the capacity-invariant witness. -/
def opsW1 : List (Op Nat Int) :=
  [.set 1 5 0, .set 2 6 0]

/-- The state after both operations of `opsW1`. -/
def sW1 : LRUState Nat Int :=
  ⟨[⟨2, 6, 0⟩], [2], 1, 0⟩

/-- Concrete configuration with a loader configured in addition to the
removal callback. -/
def cfgLoad : Config Nat Int :=
  ⟨some fun k => (100 : Int) + (k : Int), true⟩

end LruSpec

namespace LruSpec

variable {K V : Type} [DecidableEq K]

theorem mem_insertKey {k x : K} {t : List K} :
    x ∈ insertKey k t ↔ x = k ∨ x ∈ t := by
  unfold insertKey
  split
  · constructor
    · exact fun h => Or.inr h
    · rintro (rfl | h) <;> assumption
  · simp [List.mem_cons]

theorem mem_eraseKeyTable {k x : K} {t : List K} :
    x ∈ eraseKeyTable t k ↔ x ∈ t ∧ x ≠ k := by
  simp [eraseKeyTable]

theorem not_mem_eraseKeyTable {k : K} {t : List K} :
    k ∉ eraseKeyTable t k := by
  simp [mem_eraseKeyTable]

theorem findEntry_key {l : List (EntryRec K V)} {k : K} {e : EntryRec K V}
    (h : findEntry l k = some e) : e.key = k := by
  have := List.find?_some h
  simpa using this

theorem findEntry_mem {l : List (EntryRec K V)} {k : K} {e : EntryRec K V}
    (h : findEntry l k = some e) : e ∈ l :=
  List.mem_of_find?_eq_some h

theorem findEntry_isSome_of_mem {l : List (EntryRec K V)} {k : K}
    (h : k ∈ l.map fun e => e.key) : ∃ e, findEntry l k = some e ∧ e.key = k := by
  obtain ⟨e, he, hk⟩ := List.mem_map.1 h
  have hs : (l.find? fun x => decide (x.key = k)).isSome := by
    rw [List.find?_isSome]
    exact ⟨e, he, by simpa using hk⟩
  obtain ⟨e1, he1⟩ := Option.isSome_iff_exists.1 hs
  exact ⟨e1, he1, findEntry_key he1⟩

theorem length_eraseEntry {l : List (EntryRec K V)} {k : K} {e : EntryRec K V}
    (h : findEntry l k = some e) :
    (eraseEntry l k).length + 1 = l.length := by
  have h1 : l.find? (fun x => decide (x.key = k)) = some e := h
  have hm : e ∈ l := List.mem_of_find?_eq_some h1
  have hp := List.find?_some h1
  unfold eraseEntry
  exact List.length_eraseP_add_one hm hp

theorem length_eraseEntry_le (l : List (EntryRec K V)) (k : K) :
    (eraseEntry l k).length ≤ l.length :=
  List.length_eraseP_le l

theorem not_mem_keys_eraseEntry {l : List (EntryRec K V)} {k : K}
    (h : (l.map fun e => e.key).Nodup) :
    k ∉ (eraseEntry l k).map fun e => e.key := by
  induction l with
  | nil => simp [eraseEntry]
  | cons a t ih =>
    simp only [List.map_cons, List.nodup_cons] at h
    by_cases ha : a.key = k
    · rw [eraseEntry, List.eraseP_cons_of_pos (by simpa using ha)]
      rw [← ha]
      exact h.1
    · rw [eraseEntry, List.eraseP_cons_of_neg (by simpa using ha)]
      simp only [List.map_cons, List.mem_cons]
      rintro (h1 | h1)
      · exact ha h1.symm
      · exact ih h.2 h1

theorem mem_keys_eraseEntry_of_ne {l : List (EntryRec K V)} {k k2 : K}
    (hne : k ≠ k2) (h : k ∈ l.map fun e => e.key) :
    k ∈ (eraseEntry l k2).map fun e => e.key := by
  induction l with
  | nil => simp at h
  | cons a t ih =>
    by_cases ha : a.key = k2
    · rw [eraseEntry, List.eraseP_cons_of_pos (by simpa using ha)]
      simp only [List.map_cons, List.mem_cons] at h
      rcases h with h | h
      · exact absurd (h ▸ ha) hne
      · exact h
    · rw [eraseEntry, List.eraseP_cons_of_neg (by simpa using ha)]
      simp only [List.map_cons, List.mem_cons] at h ⊢
      rcases h with h | h
      · exact Or.inl h
      · exact Or.inr (ih h)

end LruSpec

namespace LruSpec

variable {K V : Type} [DecidableEq K]

theorem drop_of_getLast {α : Type} (l : List α) (d : α) (cap : Nat)
    (h : l.getLast? = some d) (hc : cap < l.length) :
    l.drop cap = l.dropLast.drop cap ++ [d] := by
  have hl : l.dropLast ++ [d] = l :=
    List.dropLast_append_getLast? d (by simp [Option.mem_def, h])
  conv_lhs => rw [← hl]
  rw [List.drop_append_of_le_length (by simp [List.length_dropLast]; omega)]

theorem checkCapacityGo_const (cfg : Config K V) :
    ∀ (fuel : Nat) (s : LRUState K V),
      (checkCapacityGo cfg fuel s).1.capacity = s.capacity ∧
        (checkCapacityGo cfg fuel s).1.ttl = s.ttl := by
  intro fuel
  induction fuel with
  | zero => intro s; simp [checkCapacityGo]
  | succ n ih =>
    intro s
    rw [checkCapacityGo]
    split
    · split
      · simp
      · exact ih _
    · simp

theorem checkCapacityGo_list (cfg : Config K V) :
    ∀ (fuel : Nat) (s : LRUState K V), s.list.length ≤ fuel →
      (checkCapacityGo cfg fuel s).1.list = s.list.take s.capacity := by
  intro fuel
  induction fuel with
  | zero =>
    intro s hs
    have : s.list = [] := List.length_eq_zero.1 (Nat.le_zero.1 hs)
    simp [checkCapacityGo, this]
  | succ n ih =>
    intro s hs
    rw [checkCapacityGo]
    split
    · rename_i hlt
      split
      · rename_i heq
        rw [List.getLast?_eq_none_iff] at heq
        rw [heq] at hlt
        simp at hlt
      · rename_i d heq
        have h1 := ih
          { s with list := s.list.dropLast, table := eraseKeyTable s.table d.key }
          (by simp [List.length_dropLast]; omega)
        simp only at h1
        rw [h1]
        simp only [List.dropLast_eq_take, List.take_take]
        have : min s.capacity (s.list.length - 1) = s.capacity := by omega
        rw [this]
    · rename_i hge
      have : s.list.length ≤ s.capacity := Nat.le_of_not_lt hge
      simp [List.take_of_length_le this]

theorem checkCapacityGo_table_mem (cfg : Config K V) :
    ∀ (fuel : Nat) (s : LRUState K V), s.list.length ≤ fuel → ∀ x : K,
      (x ∈ (checkCapacityGo cfg fuel s).1.table ↔
        x ∈ s.table ∧ x ∉ (s.list.drop s.capacity).map fun e => e.key) := by
  intro fuel
  induction fuel with
  | zero =>
    intro s hs x
    have : s.list = [] := List.length_eq_zero.1 (Nat.le_zero.1 hs)
    simp [checkCapacityGo, this]
  | succ n ih =>
    intro s hs x
    rw [checkCapacityGo]
    split
    · rename_i hlt
      split
      · rename_i heq
        rw [List.getLast?_eq_none_iff] at heq
        rw [heq] at hlt
        simp at hlt
      · rename_i d heq
        have h1 := ih
          { s with list := s.list.dropLast, table := eraseKeyTable s.table d.key }
          (by simp [List.length_dropLast]; omega) x
        simp only at h1
        rw [h1, mem_eraseKeyTable]
        have h2 := drop_of_getLast s.list d s.capacity heq hlt
        rw [h2]
        simp only [List.map_append, List.map_cons, List.map_nil, List.mem_append,
          List.mem_cons, List.not_mem_nil, or_false]
        constructor
        · rintro ⟨⟨hx, hne⟩, hnm⟩
          exact ⟨hx, by rintro (h | h) <;> [exact hnm h; exact hne h]⟩
        · rintro ⟨hx, hnm⟩
          exact ⟨⟨hx, fun h => hnm (Or.inr h)⟩, fun h => hnm (Or.inl h)⟩
    · rename_i hge
      have : s.list.length ≤ s.capacity := Nat.le_of_not_lt hge
      simp [List.drop_eq_nil_of_le this]

end LruSpec

namespace LruSpec

variable {K V : Type} [DecidableEq K]

theorem checkCapacityGo_events_key (cfg : Config K V) :
    ∀ (fuel : Nat) (s : LRUState K V), s.list.length ≤ fuel →
      ∀ ev ∈ (checkCapacityGo cfg fuel s).2,
        ev.key ∈ (s.list.drop s.capacity).map fun e => e.key := by
  intro fuel
  induction fuel with
  | zero => intro s hs ev hev; simp [checkCapacityGo] at hev
  | succ n ih =>
    intro s hs ev hev
    rw [checkCapacityGo] at hev
    split at hev
    · rename_i hlt
      split at hev
      · simp at hev
      · rename_i d heq
        have h2 := drop_of_getLast s.list d s.capacity heq hlt
        rw [h2]
        simp only [List.mem_append, List.mem_cons] at hev
        simp only [List.map_append, List.map_cons, List.map_nil, List.mem_append,
          List.mem_cons, List.not_mem_nil, or_false]
        rcases hev with hev | hev
        · right
          split at hev
          · simp at hev
            rw [hev]
          · simp at hev
        · have h3 := ih
            { s with list := s.list.dropLast, table := eraseKeyTable s.table d.key }
            (by simp [List.length_dropLast]; omega) ev hev
          simp only at h3
          exact Or.inl h3
    · simp at hev

theorem checkCapacityGo_events_snapshot (cfg : Config K V) :
    ∀ (fuel : Nat) (s : LRUState K V), (s.list.map fun e => e.key).Nodup →
      ∀ ev ∈ (checkCapacityGo cfg fuel s).2,
        ev.key ∉ ev.tableAtCall ∧ ev.key ∉ ev.listAtCall.map fun e => e.key := by
  intro fuel
  induction fuel with
  | zero => intro s hs ev hev; simp [checkCapacityGo] at hev
  | succ n ih =>
    intro s hnd ev hev
    rw [checkCapacityGo] at hev
    split at hev
    · rename_i hlt
      split at hev
      · simp at hev
      · rename_i d heq
        have hkeys : (s.list.dropLast.map fun e => e.key).Nodup :=
          ((List.dropLast_sublist s.list).map fun e => e.key).nodup hnd
        simp only [List.mem_append, List.mem_cons] at hev
        rcases hev with hev | hev
        · split at hev
          · simp at hev
            subst hev
            refine ⟨not_mem_eraseKeyTable, ?_⟩
            have hne : s.list ≠ [] := by
              intro h0; rw [h0] at hlt; simp at hlt
            have hl : s.list.dropLast ++ [d] = s.list :=
              List.dropLast_append_getLast? d (by simp [Option.mem_def, heq])
            have : (s.list.map fun e => e.key) =
                (s.list.dropLast.map fun e => e.key) ++ [d.key] := by
              conv_lhs => rw [← hl]
              simp
            rw [this] at hnd
            have hdisj := List.disjoint_of_nodup_append hnd
            intro hmem
            exact hdisj.symm (List.mem_singleton.2 rfl) hmem
          · simp at hev
        · exact ih _ hkeys ev hev
    · simp at hev

theorem checkCapacityGo_of_le (cfg : Config K V) (fuel : Nat) (s : LRUState K V)
    (h : s.list.length ≤ s.capacity) :
    checkCapacityGo cfg fuel s = (s, []) := by
  cases fuel with
  | zero => simp [checkCapacityGo]
  | succ n =>
    rw [checkCapacityGo]
    rw [if_neg (Nat.not_lt.2 h)]

theorem checkCapacity_of_le (cfg : Config K V) (s : LRUState K V)
    (h : s.list.length ≤ s.capacity) :
    checkCapacity cfg s = (s, []) :=
  checkCapacityGo_of_le cfg s.list.length s h

theorem checkCapacity_const (cfg : Config K V) (s : LRUState K V) :
    (checkCapacity cfg s).1.capacity = s.capacity ∧
      (checkCapacity cfg s).1.ttl = s.ttl :=
  checkCapacityGo_const cfg s.list.length s

theorem checkCapacity_list (cfg : Config K V) (s : LRUState K V) :
    (checkCapacity cfg s).1.list = s.list.take s.capacity :=
  checkCapacityGo_list cfg s.list.length s le_rfl

theorem checkCapacity_table_mem (cfg : Config K V) (s : LRUState K V) (x : K) :
    x ∈ (checkCapacity cfg s).1.table ↔
      x ∈ s.table ∧ x ∉ (s.list.drop s.capacity).map fun e => e.key :=
  checkCapacityGo_table_mem cfg s.list.length s le_rfl x

theorem checkCapacity_events_key (cfg : Config K V) (s : LRUState K V) :
    ∀ ev ∈ (checkCapacity cfg s).2,
      ev.key ∈ (s.list.drop s.capacity).map fun e => e.key :=
  checkCapacityGo_events_key cfg s.list.length s le_rfl

theorem checkCapacity_events_snapshot (cfg : Config K V) (s : LRUState K V)
    (hnd : (s.list.map fun e => e.key).Nodup) :
    ∀ ev ∈ (checkCapacity cfg s).2,
      ev.key ∉ ev.tableAtCall ∧ ev.key ∉ ev.listAtCall.map fun e => e.key :=
  checkCapacityGo_events_snapshot cfg s.list.length s hnd

end LruSpec

namespace LruSpec

variable {K V : Type} [DecidableEq K]

theorem addNew_eq (cfg : Config K V) (k : K) (v : V) (now : Nat)
    (s : LRUState K V) :
    addNew cfg k v now s =
      checkCapacity cfg
        { s with list := ⟨k, v, if 0 < s.ttl then now else 0⟩ :: s.list,
                 table := insertKey k s.table } :=
  rfl

theorem addNew_of_lt (cfg : Config K V) (k : K) (v : V) (now : Nat)
    (s : LRUState K V) (h : s.list.length < s.capacity) :
    addNew cfg k v now s =
      ({ s with list := ⟨k, v, if 0 < s.ttl then now else 0⟩ :: s.list,
                table := insertKey k s.table }, []) := by
  rw [addNew_eq]
  exact checkCapacity_of_le cfg _ (by simpa using h)

theorem updateInplace_none {k : K} {s : LRUState K V} (v : V) (now : Nat)
    (hf : findEntry s.list k = none) :
    updateInplace k v now s = s := by
  simp [updateInplace, hf]

theorem updateInplace_some {k : K} {s : LRUState K V} {e : EntryRec K V}
    (v : V) (now : Nat) (hf : findEntry s.list k = some e) :
    updateInplace k v now s =
      { s with list :=
          ⟨e.key, v, if 0 < s.ttl then now else e.lastUpdate⟩ ::
            eraseEntry s.list k } := by
  simp [updateInplace, hf]

theorem Set_present (cfg : Config K V) {k : K} (v : V) (now : Nat)
    {s : LRUState K V} (hk : k ∈ s.table) :
    Set cfg k v now s = (updateInplace k v now s, []) := by
  simp [Set, hk]

theorem Set_absent (cfg : Config K V) {k : K} (v : V) (now : Nat)
    {s : LRUState K V} (hk : k ∉ s.table) :
    Set cfg k v now s = addNew cfg k v now s := by
  simp [Set, hk]

theorem Get_miss_none {cfg : Config K V} {k : K} (now : Nat)
    {s : LRUState K V} (hk : k ∉ s.table) (ha : cfg.addFunc = none) :
    Get cfg k now s = (none, false, s, []) := by
  simp [Get, hk, ha]

theorem Get_miss_load {cfg : Config K V} {k : K} {f : K → V} (now : Nat)
    {s : LRUState K V} (hk : k ∉ s.table) (ha : cfg.addFunc = some f) :
    Get cfg k now s =
      (some (f k), true, (addNew cfg k (f k) now s).1,
       (addNew cfg k (f k) now s).2) := by
  simp [Get, hk, ha]

theorem Get_dangling {cfg : Config K V} {k : K} (now : Nat)
    {s : LRUState K V} (hk : k ∈ s.table) (hf : findEntry s.list k = none) :
    Get cfg k now s = (none, false, s, []) := by
  simp [Get, hk, hf]

theorem Get_hit {cfg : Config K V} {k : K} {now : Nat}
    {s : LRUState K V} {e : EntryRec K V} (hk : k ∈ s.table)
    (hf : findEntry s.list k = some e)
    (hcond : ¬(0 < s.ttl ∧ s.ttl < now - e.lastUpdate)) :
    Get cfg k now s =
      (some e.value, true, { s with list := e :: eraseEntry s.list k }, []) := by
  simp [Get, hk, hf, hcond]

theorem Get_expired_none {cfg : Config K V} {k : K} {now : Nat}
    {s : LRUState K V} {e : EntryRec K V} (hk : k ∈ s.table)
    (hf : findEntry s.list k = some e)
    (hcond : 0 < s.ttl ∧ s.ttl < now - e.lastUpdate)
    (ha : cfg.addFunc = none) :
    Get cfg k now s =
      (none, false,
       { s with list := eraseEntry s.list k, table := eraseKeyTable s.table k },
       if cfg.removalConfigured then [⟨e.key, e.value, s.table, s.list⟩]
       else []) := by
  simp [Get, hk, hf, hcond, ha]

theorem Get_expired_load {cfg : Config K V} {k : K} {f : K → V} {now : Nat}
    {s : LRUState K V} {e : EntryRec K V} (hk : k ∈ s.table)
    (hf : findEntry s.list k = some e)
    (hcond : 0 < s.ttl ∧ s.ttl < now - e.lastUpdate)
    (ha : cfg.addFunc = some f) :
    Get cfg k now s =
      (some (f k), true,
       (addNew cfg k (f k) now
         { s with list := eraseEntry s.list k,
                  table := eraseKeyTable s.table k }).1,
       (if cfg.removalConfigured then [⟨e.key, e.value, s.table, s.list⟩]
        else []) ++
         (addNew cfg k (f k) now
           { s with list := eraseEntry s.list k,
                    table := eraseKeyTable s.table k }).2) := by
  simp [Get, hk, hf, hcond, ha]

theorem Delete_present (cfg : Config K V) {k : K} {s : LRUState K V}
    (hk : k ∈ s.table) :
    Delete cfg k s =
      (true,
       { s with list := eraseEntry s.list k, table := eraseKeyTable s.table k },
       if cfg.removalConfigured then
         match findEntry s.list k with
         | some n => [⟨n.key, n.value, s.table, s.list⟩]
         | none => []
       else []) := by
  simp [Delete, hk]

theorem Delete_absent (cfg : Config K V) {k : K} {s : LRUState K V}
    (hk : k ∉ s.table) :
    Delete cfg k s = (false, s, []) := by
  simp [Delete, hk]

end LruSpec

namespace LruSpec

variable {K V : Type} [DecidableEq K]

theorem addNew_invariant (cfg : Config K V) (k : K) (v : V) (now : Nat)
    (s : LRUState K V) :
    (addNew cfg k v now s).1.list.length ≤ s.capacity ∧
      (addNew cfg k v now s).1.capacity = s.capacity := by
  rw [addNew_eq]
  constructor
  · rw [checkCapacity_list]
    simp [List.length_take]
  · exact (checkCapacity_const cfg _).1

theorem applyOp_invariant (cfg : Config K V) (s : LRUState K V) (op : Op K V)
    (h : s.list.length ≤ s.capacity) :
    (applyOp cfg s op).1.list.length ≤ s.capacity ∧
      (applyOp cfg s op).1.capacity = s.capacity := by
  cases op with
  | set k v now =>
    simp only [applyOp]
    by_cases hk : k ∈ s.table
    · rw [Set_present cfg v now hk]
      cases hf : findEntry s.list k with
      | none => rw [updateInplace_none v now hf]; exact ⟨h, rfl⟩
      | some e =>
        rw [updateInplace_some v now hf]
        refine ⟨?_, rfl⟩
        simp only [List.length_cons]
        have := length_eraseEntry hf
        omega
    · rw [Set_absent cfg v now hk]
      exact addNew_invariant cfg k v now s
  | get k now =>
    simp only [applyOp]
    by_cases hk : k ∈ s.table
    · cases hf : findEntry s.list k with
      | none => rw [Get_dangling now hk hf]; exact ⟨h, rfl⟩
      | some e =>
        by_cases hcond : 0 < s.ttl ∧ s.ttl < now - e.lastUpdate
        · cases ha : cfg.addFunc with
          | none =>
            rw [Get_expired_none hk hf hcond ha]
            exact ⟨le_trans (length_eraseEntry_le _ _) h, rfl⟩
          | some f =>
            rw [Get_expired_load hk hf hcond ha]
            exact addNew_invariant cfg k (f k) now _
        · rw [Get_hit hk hf hcond]
          refine ⟨?_, rfl⟩
          simp only [List.length_cons]
          have := length_eraseEntry hf
          omega
    · cases ha : cfg.addFunc with
      | none => rw [Get_miss_none now hk ha]; exact ⟨h, rfl⟩
      | some f => rw [Get_miss_load now hk ha]; exact addNew_invariant cfg k (f k) now s

theorem statesAfter_invariant (cfg : Config K V) :
    ∀ (ops : List (Op K V)) (s : LRUState K V), s.list.length ≤ s.capacity →
      ∀ s2 ∈ statesAfter cfg s ops, Len s2 ≤ Capacity s2 := by
  intro ops
  induction ops with
  | nil => intro s h s2 h2; simp [statesAfter] at h2
  | cons op rest ih =>
    intro s h s2 h2
    simp only [statesAfter, List.mem_cons] at h2
    obtain ⟨h1, h1c⟩ := applyOp_invariant cfg s op h
    have hnext : (applyOp cfg s op).1.list.length ≤ (applyOp cfg s op).1.capacity := by
      rw [h1c]; exact h1
    rcases h2 with rfl | h2
    · exact hnext
    · exact ih (applyOp cfg s op).1 hnext s2 h2

/-- C1: for every cache constructed with capacity c >= 1 and every finite
sequence of public Set and Get operations (including those that trigger the
loader or eviction), `Len() <= Capacity()` holds after each operation
returns. -/
theorem C1_capacity_invariant (cfg : Config K V) (c ttl : Nat) (hc : 1 ≤ c)
    (ops : List (Op K V)) :
    ∀ s2 ∈ statesAfter cfg (New c ttl) ops, Len s2 ≤ Capacity s2 :=
  statesAfter_invariant cfg ops (New c ttl) (by simp [New])

/-- Witness for C1: the capacity-1 cache after the two inserts of `opsW1`
satisfies the invariant. -/
theorem C1_capacity_invariant_witness : Len sW1 ≤ Capacity sW1 :=
  C1_capacity_invariant cfgNL 1 0 (by decide) opsW1 sW1 (by decide)

/-- C2: for a cache of capacity 4 with TTL disabled, inserting keys 1,2,3,4
(A,B,C,D), then accessing key 1 via Get, then inserting key 5 (E), evicts
exactly key 2 (B, the least recently used); keys 1,3,4,5 remain present. -/
theorem C2_lru_order :
    ((runOps cfgNL (New 4 0) opsC2).2.map fun ev => (ev.key, ev.value)) =
        [(2, 20)] ∧
      ((runOps cfgNL (New 4 0) opsC2).1.list.map fun e => e.key) =
        [5, 1, 4, 3] ∧
      2 ∉ (runOps cfgNL (New 4 0) opsC2).1.table ∧
      1 ∈ (runOps cfgNL (New 4 0) opsC2).1.table ∧
      3 ∈ (runOps cfgNL (New 4 0) opsC2).1.table ∧
      4 ∈ (runOps cfgNL (New 4 0) opsC2).1.table ∧
      5 ∈ (runOps cfgNL (New 4 0) opsC2).1.table := by
  decide

end LruSpec

namespace LruSpec

variable {K V : Type} [DecidableEq K]

/-- C3 counterexample: with TTL 10, after inserting key 1 at time 0, a Get at
time 5 is a hit that returns (7, true), yet the entry's lastUpdate stays 0
instead of being refreshed to 5: Get never touches the timestamp. -/
theorem C3_counterexample :
    0 < sC3.ttl ∧
      (Get cfgNL 1 5 sC3).1 = some 7 ∧
      (Get cfgNL 1 5 sC3).2.1 = true ∧
      findEntry (Get cfgNL 1 5 sC3).2.2.1.list 1 = some ⟨1, 7, 0⟩ ∧
      (0 : Nat) ≠ 5 := by
  decide

/-- C3 amended: with TTL enabled, a Get on a present, non-expired key moves
the entry to the front and returns (value, true), but does not refresh the
entry's lastUpdate timestamp (every entry of the resulting list, including
the accessed one, is one of the original entries, timestamp included); the
timestamp is refreshed only at creation and by Set on an existing key. -/
theorem C3_get_hit_no_refresh (cfg : Config K V) (k : K) (now : Nat)
    (s : LRUState K V) (e : EntryRec K V) (hk : k ∈ s.table)
    (hf : findEntry s.list k = some e)
    (hcond : ¬(0 < s.ttl ∧ s.ttl < now - e.lastUpdate)) :
    Get cfg k now s =
        (some e.value, true, { s with list := e :: eraseEntry s.list k }, []) ∧
      ∀ x ∈ (Get cfg k now s).2.2.1.list, x ∈ s.list := by
  have h1 := @Get_hit K V inferInstance cfg k now s e hk hf hcond
  refine ⟨h1, ?_⟩
  rw [h1]
  intro x hx
  simp only [List.mem_cons] at hx
  rcases hx with rfl | hx
  · exact findEntry_mem hf
  · exact (List.eraseP_sublist s.list).subset hx

/-- Witness for C3 amended: the hit at time 5 on `sC3` keeps the entry
stamped 0 and moves it to the front. -/
theorem C3_get_hit_no_refresh_witness :
    Get cfgNL 1 5 sC3 =
      (some 7, true, { sC3 with list := ⟨1, 7, 0⟩ :: eraseEntry sC3.list 1 },
       []) :=
  (C3_get_hit_no_refresh cfgNL 1 5 sC3 ⟨1, 7, 0⟩ (by decide) (by decide)
    (by decide)).1

/-- C4 counterexample: Flush on a cache holding key 2 (most recently used)
and key 1 fires the removal callbacks in order [2, 1], the list (MRU first)
order, not the least- to most-recently-used order [1, 2]. -/
theorem C4_counterexample :
    ((Flush cfgNL sC4).2.map fun ev => ev.key) =
        (sC4.list.map fun e => e.key) ∧
      (sC4.list.map fun e => e.key) = [2, 1] ∧
      ((Flush cfgNL sC4).2.map fun ev => ev.key) ≠
        (sC4.list.map fun e => e.key).reverse := by
  decide

/-- C4 amended: with a removal callback configured, Flush invokes it exactly
once per resident entry in most- to least-recently-used order (the recency
list order, front first), and afterwards the state equals a freshly
constructed cache with the same capacity and ttl, so `Len() = 0` and
`Capacity()` is preserved. -/
theorem C4_flush_spec (cfg : Config K V) (s : LRUState K V)
    (hr : cfg.removalConfigured = true) :
    (Flush cfg s).1 = New s.capacity s.ttl ∧
      Len (Flush cfg s).1 = 0 ∧
      Capacity (Flush cfg s).1 = Capacity s ∧
      ((Flush cfg s).2.map fun ev => (ev.key, ev.value)) =
        (s.list.map fun e => (e.key, e.value)) ∧
      (Flush cfg s).2.length = Len s := by
  simp [Flush, hr, New, Len, Capacity]

/-- Witness for C4 amended: flushing `sC4` leaves a fresh capacity-4 cache. -/
theorem C4_flush_spec_witness :
    (Flush cfgNL sC4).1 = New sC4.capacity sC4.ttl :=
  (C4_flush_spec cfgNL sC4 rfl).1

/-- C5: with TTL enabled, a Get on a present but expired key invokes the
removal callback exactly once with the stale (key, value), removes the entry
from index and recency list, and then behaves exactly as a miss: without a
loader it returns (none, false) and no entry for the key remains; with a
loader it inserts a fresh entry stamped `now` and returns (loaded value,
true). -/
theorem C5_ttl_expired_get (cfg : Config K V) (k : K) (now : Nat)
    (s : LRUState K V) (e : EntryRec K V)
    (hwf : WF s) (hlen : Len s ≤ s.capacity)
    (hr : cfg.removalConfigured = true)
    (hk : k ∈ s.table) (hf : findEntry s.list k = some e)
    (httl : 0 < s.ttl) (hexp : s.ttl < now - e.lastUpdate) :
    (Get cfg k now s).2.2.2 = [⟨k, e.value, s.table, s.list⟩] ∧
      (cfg.addFunc = none →
        Get cfg k now s =
          (none, false,
           { s with list := eraseEntry s.list k,
                    table := eraseKeyTable s.table k },
           [⟨k, e.value, s.table, s.list⟩]) ∧
        k ∉ ((eraseEntry s.list k).map fun x => x.key) ∧
        k ∉ eraseKeyTable s.table k) ∧
      (∀ f, cfg.addFunc = some f →
        Get cfg k now s =
          (some (f k), true,
           { s with list := ⟨k, f k, now⟩ :: eraseEntry s.list k,
                    table := insertKey k (eraseKeyTable s.table k) },
           [⟨k, e.value, s.table, s.list⟩])) := by
  have hek : e.key = k := findEntry_key hf
  have hcond : 0 < s.ttl ∧ s.ttl < now - e.lastUpdate := ⟨httl, hexp⟩
  have hlenE : (eraseEntry s.list k).length + 1 = s.list.length :=
    length_eraseEntry hf
  have hlen1 : s.list.length ≤ s.capacity := hlen
  cases ha : cfg.addFunc with
  | none =>
    have hG := Get_expired_none hk hf hcond ha
    rw [hr, if_pos rfl, hek] at hG
    refine ⟨by rw [hG], fun _ => ⟨hG, ?_, not_mem_eraseKeyTable⟩, ?_⟩
    · exact not_mem_keys_eraseEntry hwf.2.1
    · intro f hfa
      cases hfa
  | some f0 =>
    have hG := Get_expired_load hk hf hcond ha
    have hlt : (eraseEntry s.list k).length < s.capacity := by omega
    have hA := addNew_of_lt cfg k (f0 k) now
      { s with list := eraseEntry s.list k, table := eraseKeyTable s.table k }
      (by simpa using hlt)
    simp only at hA
    rw [hA] at hG
    rw [hr, if_pos rfl, hek] at hG
    simp only [List.append_nil] at hG
    rw [if_pos httl] at hG
    refine ⟨by rw [hG], fun hn => ?_, fun f hfa => ?_⟩
    · cases hn
    · injection hfa with hfa
      subst hfa
      exact hG

/-- Witness for C5: on `sC5` (ttl 10), a Get of key 1 at time 20 evicts the
stale entry, reports it once, and misses. -/
theorem C5_ttl_expired_get_witness :
    Get cfgNL 1 20 sC5 =
      (none, false,
       { sC5 with list := eraseEntry sC5.list 1,
                  table := eraseKeyTable sC5.table 1 },
       [⟨1, 5, sC5.table, sC5.list⟩]) :=
  ((C5_ttl_expired_get cfgNL 1 20 sC5 ⟨1, 5, 0⟩ (by decide) (by decide) rfl
      (by decide) (by decide) (by decide) (by decide)).2.1 rfl).1

end LruSpec

namespace LruSpec

variable {K V : Type} [DecidableEq K]

/-- C6 counterexample: deleting key 1 from `sC6` invokes the removal callback
while key 1 is still present in both the table and the list snapshots taken
at the moment of the call, so the removal has not completed before the
callback is invoked. -/
theorem C6_counterexample :
    (Delete cfgNL 1 sC6).1 = true ∧
      (Delete cfgNL 1 sC6).2.2 = [evC6] ∧
      evC6.key ∈ evC6.tableAtCall ∧
      evC6.key ∈ (evC6.listAtCall.map fun e => e.key) := by
  decide

/-- C6 amended: capacity-triggered evictions remove the entry from index and
recency list before invoking the removal callback on every path that can
reach them (Set of a new key, and the loader path of Get, both on a plain
miss and after a TTL expiry); Delete and TTL-expiry on Get instead invoke
the callback first, while the entry is still present in both structures at
the moment of the call.  This holds for every loader and callback
configuration: on an expired Get the stale entry's event comes first with
pre-removal snapshots, and every later event of the same call (a capacity
eviction in the loader path) carries post-removal snapshots; a non-expired
hit fires no callback at all. -/
theorem C6_callback_order (cfg : Config K V) (k : K) (v : V) (now : Nat)
    (s : LRUState K V) (hwf : WF s) :
    (∀ ev ∈ (Set cfg k v now s).2,
        ev.key ∉ ev.tableAtCall ∧
          ev.key ∉ (ev.listAtCall.map fun e => e.key)) ∧
      (k ∈ s.table → ∀ ev ∈ (Delete cfg k s).2.2,
        ev.key ∈ ev.tableAtCall ∧
          ev.key ∈ (ev.listAtCall.map fun e => e.key)) ∧
      (∀ e, k ∈ s.table → findEntry s.list k = some e →
        0 < s.ttl ∧ s.ttl < now - e.lastUpdate →
        (cfg.removalConfigured = true →
          (Get cfg k now s).2.2.2.head? =
              some ⟨k, e.value, s.table, s.list⟩ ∧
            k ∈ s.table ∧ k ∈ (s.list.map fun x => x.key) ∧
            ∀ ev ∈ (Get cfg k now s).2.2.2.tail,
              ev.key ∉ ev.tableAtCall ∧
                ev.key ∉ (ev.listAtCall.map fun x => x.key)) ∧
          (cfg.removalConfigured = false →
            ∀ ev ∈ (Get cfg k now s).2.2.2,
              ev.key ∉ ev.tableAtCall ∧
                ev.key ∉ (ev.listAtCall.map fun x => x.key))) ∧
      (∀ e, k ∈ s.table → findEntry s.list k = some e →
        ¬(0 < s.ttl ∧ s.ttl < now - e.lastUpdate) →
        (Get cfg k now s).2.2.2 = []) ∧
      (k ∉ s.table → ∀ ev ∈ (Get cfg k now s).2.2.2,
        ev.key ∉ ev.tableAtCall ∧
          ev.key ∉ (ev.listAtCall.map fun x => x.key)) := by
  refine ⟨?_, ?_, ?_, ?_, ?_⟩
  · by_cases hk : k ∈ s.table
    · rw [Set_present cfg v now hk]
      intro ev hev
      simp at hev
    · rw [Set_absent cfg v now hk, addNew_eq]
      refine checkCapacity_events_snapshot cfg _ ?_
      simp only [List.map_cons, List.nodup_cons]
      exact ⟨fun h => hk (hwf.2.2.2 k h), hwf.2.1⟩
  · intro hk ev hev
    rw [Delete_present cfg hk] at hev
    simp only at hev
    split at hev
    · split at hev
      · rename_i n hfn
        simp only [List.mem_singleton] at hev
        subst hev
        have hnk : n.key = k := findEntry_key hfn
        exact ⟨by simpa [hnk] using hk,
          List.mem_map_of_mem (fun e => e.key) (findEntry_mem hfn)⟩
      · simp at hev
    · simp at hev
  · intro e hk hf hcond
    have hek : e.key = k := findEntry_key hf
    have hnodupE : ((eraseEntry s.list k).map fun x => x.key).Nodup :=
      ((List.eraseP_sublist s.list).map fun x => x.key).nodup hwf.2.1
    have hrest : ∀ f1 : K → V, ∀ ev ∈ (addNew cfg k (f1 k) now
        { s with list := eraseEntry s.list k,
                 table := eraseKeyTable s.table k }).2,
        ev.key ∉ ev.tableAtCall ∧
          ev.key ∉ (ev.listAtCall.map fun x => x.key) := by
      intro f1
      rw [addNew_eq]
      refine checkCapacity_events_snapshot cfg _ ?_
      simp only [List.map_cons, List.nodup_cons]
      exact ⟨not_mem_keys_eraseEntry hwf.2.1, hnodupE⟩
    constructor
    · intro hr
      cases ha : cfg.addFunc with
      | none =>
        have hG := Get_expired_none hk hf hcond ha
        rw [hr, if_pos rfl, hek] at hG
        rw [hG]
        exact ⟨rfl, hk, hwf.2.2.1 k hk, by intro ev hev; simp at hev⟩
      | some f =>
        have hG := Get_expired_load hk hf hcond ha
        rw [hr, if_pos rfl, hek] at hG
        rw [hG]
        refine ⟨by simp, hk, hwf.2.2.1 k hk, ?_⟩
        intro ev hev
        simp only [List.singleton_append, List.tail_cons] at hev
        exact hrest f ev hev
    · intro hr ev hev
      cases ha : cfg.addFunc with
      | none =>
        rw [Get_expired_none hk hf hcond ha] at hev
        simp [hr] at hev
      | some f =>
        rw [Get_expired_load hk hf hcond ha] at hev
        simp only [hr, Bool.false_eq_true, if_false, List.nil_append] at hev
        exact hrest f ev hev
  · intro e hk hf hcond
    rw [Get_hit hk hf hcond]
  · intro hk ev hev
    cases ha : cfg.addFunc with
    | none =>
      rw [Get_miss_none now hk ha] at hev
      simp at hev
    | some f =>
      rw [Get_miss_load now hk ha] at hev
      simp only at hev
      rw [addNew_eq] at hev
      refine checkCapacity_events_snapshot cfg _ ?_ ev hev
      simp only [List.map_cons, List.nodup_cons]
      exact ⟨fun h => hk (hwf.2.2.2 k h), hwf.2.1⟩

/-- Witness for C6 amended: an expired Get of key 1 on `sC3` with a loader
configured fires the stale callback first, with the pre-removal state (key 1
still in table and list) as its snapshot. -/
theorem C6_callback_order_witness :
    (Get cfgLoad 1 20 sC3).2.2.2.head? =
      some ⟨1, 7, sC3.table, sC3.list⟩ :=
  (((C6_callback_order cfgLoad 1 1 20 sC3 (by decide)).2.2.1 ⟨1, 7, 0⟩
      (by decide) (by decide) (by decide)).1 rfl).1

/-- C7: Delete returns true iff an entry for the key is present; when true
the entry is removed from index and recency list and the removal callback
(when configured) is invoked exactly once with the entry's key and value;
when false the state is unchanged and no callback fires. -/
theorem C7_delete_spec (cfg : Config K V) (k : K) (s : LRUState K V)
    (hwf : WF s) :
    ((Delete cfg k s).1 = true ↔ k ∈ s.table) ∧
      (k ∈ s.table → ∃ e, findEntry s.list k = some e ∧ e.key = k ∧
        Delete cfg k s =
          (true,
           { s with list := eraseEntry s.list k,
                    table := eraseKeyTable s.table k },
           if cfg.removalConfigured then [⟨k, e.value, s.table, s.list⟩]
           else []) ∧
        k ∉ ((eraseEntry s.list k).map fun x => x.key) ∧
        k ∉ eraseKeyTable s.table k) ∧
      (k ∉ s.table → Delete cfg k s = (false, s, [])) := by
  by_cases hk : k ∈ s.table
  · obtain ⟨e, hf, hek⟩ := findEntry_isSome_of_mem (hwf.2.2.1 k hk)
    have hD := Delete_present cfg hk
    simp only [hf] at hD
    rw [hek] at hD
    refine ⟨by simp [hD, hk], fun _ => ?_, fun hn => absurd hk hn⟩
    exact ⟨e, hf, hek, hD, not_mem_keys_eraseEntry hwf.2.1,
      not_mem_eraseKeyTable⟩
  · have hD := Delete_absent cfg hk
    exact ⟨by simp [hD, hk], fun h => absurd h hk, fun _ => hD⟩

/-- Witness for C7: deleting the absent key 9 from `sC6` returns false and
leaves the state unchanged with no callback. -/
theorem C7_delete_spec_witness : Delete cfgNL 9 sC6 = (false, sC6, []) :=
  (C7_delete_spec cfgNL 9 sC6 (by decide)).2.2 (by decide)

end LruSpec

namespace LruSpec

variable {K V : Type} [DecidableEq K]

/-- C8: for a capacity-4 counter, the increments key1+1, key2+1, key2+1,
key3+1, key3+1, key4+1, key5+1 fire the removal callback exactly once during
the increments (for key 1 with total 1, on the insert of key 5: the first
six increments fire none), and the final Flush reports the remaining four
entries, for five callbacks in total whose reported totals sum to 7. -/
theorem C8_counter_scenario :
    (runIncrs (New 4 0 : LRUState Nat Int) incrsC8a).2 = [] ∧
      ((runIncrs (New 4 0 : LRUState Nat Int) incrsC8).2.map
          fun ev => (ev.key, ev.value)) = [(1, 1)] ∧
      ((Flush counterConfig
            (runIncrs (New 4 0 : LRUState Nat Int) incrsC8).1).2.map
          fun ev => (ev.key, ev.value)) = [(5, 1), (4, 1), (3, 2), (2, 2)] ∧
      ((runIncrs (New 4 0 : LRUState Nat Int) incrsC8).2 ++
          (Flush counterConfig
            (runIncrs (New 4 0 : LRUState Nat Int) incrsC8).1).2).length = 5 ∧
      (((runIncrs (New 4 0 : LRUState Nat Int) incrsC8).2 ++
          (Flush counterConfig
            (runIncrs (New 4 0 : LRUState Nat Int) incrsC8).1).2).map
          fun ev => ev.value).sum = 7 := by
  decide

/-- C9 counterexample: in the capacity-1 cache `sC9` with ttl 10, key 1 is
expired at time 20 and has never been accessed; a Set of the different key 2
at time 20 removes it through capacity eviction, so an expired entry can be
removed by an operation on another key. -/
theorem C9_counterexample :
    0 < sC9.ttl ∧ sC9.ttl < 20 - (0 : Nat) ∧ 1 ∈ sC9.table ∧
      ((Set cfgNL 2 7 20 sC9).2.map fun ev => ev.key) = [1] ∧
      1 ∉ (Set cfgNL 2 7 20 sC9).1.table ∧
      1 ∉ ((Set cfgNL 2 7 20 sC9).1.list.map fun e => e.key) := by
  decide

/-- C9 amended: TTL expiry is checked only for the key being accessed, never
by a sweep: a Get or a Set of a different, already present key leaves any
other resident entry, expired or not, in the index and in the recency list
(hence still counted by Len); an expired entry can leave the cache only via
a Get on its own key, a Delete, a Flush, or a capacity eviction caused by
inserting a new key. -/
theorem C9_lazy_expiry (cfg : Config K V) (k k2 : K) (v : V) (now : Nat)
    (s : LRUState K V) (hwf : WF s) (hlen : Len s ≤ s.capacity)
    (hne : k ≠ k2) (hk : k ∈ s.table) (hk2 : k2 ∈ s.table) :
    (k ∈ (Get cfg k2 now s).2.2.1.table ∧
        k ∈ ((Get cfg k2 now s).2.2.1.list.map fun e => e.key)) ∧
      (k ∈ (Set cfg k2 v now s).1.table ∧
        k ∈ ((Set cfg k2 v now s).1.list.map fun e => e.key)) := by
  have hkeys : k ∈ (s.list.map fun e => e.key) := hwf.2.2.1 k hk
  obtain ⟨e2, hf2, he2k⟩ := findEntry_isSome_of_mem (hwf.2.2.1 k2 hk2)
  have hkeysE : k ∈ ((eraseEntry s.list k2).map fun e => e.key) :=
    mem_keys_eraseEntry_of_ne hne hkeys
  constructor
  · by_cases hcond : 0 < s.ttl ∧ s.ttl < now - e2.lastUpdate
    · cases ha : cfg.addFunc with
      | none =>
        rw [Get_expired_none hk2 hf2 hcond ha]
        exact ⟨mem_eraseKeyTable.2 ⟨hk, hne⟩, hkeysE⟩
      | some f =>
        rw [Get_expired_load hk2 hf2 hcond ha]
        have hlenE := length_eraseEntry hf2
        have hlen1 : s.list.length ≤ s.capacity := hlen
        have hA := addNew_of_lt cfg k2 (f k2) now
          { s with list := eraseEntry s.list k2,
                   table := eraseKeyTable s.table k2 }
          (by simp only; omega)
        simp only at hA
        rw [hA]
        refine ⟨mem_insertKey.2 (Or.inr (mem_eraseKeyTable.2 ⟨hk, hne⟩)), ?_⟩
        simp only [List.map_cons, List.mem_cons]
        exact Or.inr hkeysE
    · rw [Get_hit hk2 hf2 hcond]
      refine ⟨hk, ?_⟩
      simp only [List.map_cons, List.mem_cons]
      exact Or.inr hkeysE
  · rw [Set_present cfg v now hk2, updateInplace_some v now hf2]
    refine ⟨hk, ?_⟩
    simp only [List.map_cons, List.mem_cons]
    exact Or.inr hkeysE

/-- Witness for C9 amended: in `sC5` at time 20 a Get of key 2 (itself
expired) leaves key 1 resident in table and list. -/
theorem C9_lazy_expiry_witness :
    1 ∈ (Get cfgNL 2 20 sC5).2.2.1.table ∧
      1 ∈ ((Get cfgNL 2 20 sC5).2.2.1.list.map fun e => e.key) :=
  (C9_lazy_expiry cfgNL 1 2 0 20 sC5 (by decide) (by decide) (by decide)
    (by decide) (by decide)).1

/-- C10: immediately after Set(k, v) on a well formed cache of capacity at
least 1, key k is present in the table, the front entry of the recency list
holds (k, v), looking k up finds that front entry, and every eviction the
insert triggered removed a key different from k: even at capacity 1 the
just-inserted key is never the evicted one. -/
theorem C10_set_front (cfg : Config K V) (k : K) (v : V) (now : Nat)
    (s : LRUState K V) (hwf : WF s) (hcap : 1 ≤ s.capacity) :
    (((Set cfg k v now s).1.list.head?.map fun e => (e.key, e.value)) =
        some (k, v)) ∧
      k ∈ (Set cfg k v now s).1.table ∧
      ((findEntry (Set cfg k v now s).1.list k).map fun e => (e.key, e.value)) =
        some (k, v) ∧
      ∀ ev ∈ (Set cfg k v now s).2, ev.key ≠ k := by
  by_cases hk : k ∈ s.table
  · obtain ⟨e, hf, hek⟩ := findEntry_isSome_of_mem (hwf.2.2.1 k hk)
    rw [Set_present cfg v now hk, updateInplace_some v now hf]
    refine ⟨by simp [hek], hk, ?_, fun ev hev => by simp at hev⟩
    rw [findEntry, List.find?_cons_of_pos _ (by simp [hek])]
    simp [hek]
  · rw [Set_absent cfg v now hk, addNew_eq]
    have hknotin : k ∉ (s.list.map fun e => e.key) := fun h =>
      hk (hwf.2.2.2 k h)
    obtain ⟨c, hc⟩ : ∃ c, s.capacity = c + 1 :=
      ⟨s.capacity - 1, by omega⟩
    have hdropsub : ∀ x, x ∈ ((s.list.drop c).map fun e => e.key) →
        x ∈ (s.list.map fun e => e.key) := fun x hx =>
      (((List.drop_sublist c s.list).map fun e => e.key).subset) hx
    refine ⟨?_, ?_, ?_, ?_⟩
    · rw [checkCapacity_list]
      simp only [hc, List.take_succ_cons, List.head?_cons, Option.map_some]
      rfl
    · rw [checkCapacity_table_mem]
      refine ⟨mem_insertKey.2 (Or.inl rfl), ?_⟩
      simp only [hc, List.drop_succ_cons]
      intro hmem
      exact hknotin (hdropsub k hmem)
    · rw [checkCapacity_list]
      simp only [hc, List.take_succ_cons]
      rw [findEntry, List.find?_cons_of_pos _ (by simp)]
      simp
    · intro ev hev
      have h1 := checkCapacity_events_key cfg _ ev hev
      simp only [hc, List.drop_succ_cons] at h1
      intro hkey
      rw [hkey] at h1
      exact hknotin (hdropsub k h1)

/-- Witness for C10: inserting key 1 into the full capacity-1 cache `sW1`
leaves key 1 at the front and in the table (the resident key 2 was evicted,
not key 1). -/
theorem C10_set_front_witness :
    (((Set cfgNL 1 9 0 sW1).1.list.head?.map fun e => (e.key, e.value)) =
        some (1, 9)) ∧ 1 ∈ (Set cfgNL 1 9 0 sW1).1.table :=
  ⟨(C10_set_front cfgNL 1 9 0 sW1 (by decide) (by decide)).1,
   (C10_set_front cfgNL 1 9 0 sW1 (by decide) (by decide)).2.1⟩

end LruSpec
